import Mathlib

/-!
Verification of the TMT reporter-ion search core (`tmt.py`).

The embedding below translates the program's data model and operations into
Lean. Python floats are modelled as rationals (`ℚ`); operations that can raise
an exception (out-of-range list indexing) are modelled in `Except String`,
with the error string naming the Python exception class. List indexing with a
junk default is only ever used at positions proved in range.
-/

namespace Tmt

/-- The ten fixed TMT reporter ion m/z constants (`REPORTERS` in the source),
listed in the source's (ascending) order. -/
def REPORTERS : List ℚ :=
  [126.127726, 127.124761, 127.131081, 128.128116, 128.134436,
   129.131471, 129.137790, 130.134825, 130.141145, 131.138180]

/-- Value of `key(a[i])` with junk value `0` when `i` is out of range. Used to phrase the
comparisons inside the binary search; all uses are at in-range positions. -/
def keyAt (key : α → ℚ) (a : List α) (i : ℕ) : ℚ :=
  ((a.get? i).map key).getD 0

/-- Embedding of Python's `bisect.bisect` (alias of `bisect_right`) as called by
`index_most_closed`: the CPython binary-search loop
`while lo < hi: mid = (lo+hi)//2; if x < key(a[mid]): hi = mid else: lo = mid+1`,
returning `lo`. The source always calls it with the full range `lo = 0`,
`hi = len(a)`. -/
def bisectRight (key : α → ℚ) (x : ℚ) (a : List α) (lo hi : ℕ) : ℕ :=
  if lo < hi then
    if x < keyAt key a ((lo + hi) / 2) then bisectRight key x a lo ((lo + hi) / 2)
    else bisectRight key x a ((lo + hi) / 2 + 1) hi
  else lo
termination_by hi - lo
decreasing_by all_goals omega

/-- The source's `index_most_closed(x, a, key=key)`. `key=None` is modelled
by passing `id`. After computing the insertion point `bisect_i`, the source
returns `min([bisect_i, bisect_i - 1], key=lambda i: abs(x - key(a[i])))`;
Python's `min` keeps the first listed index on a tie, so the comparison below
is `≤` in favour of `bisect_i`. -/
def index_most_closed (key : α → ℚ) (x : ℚ) (a : List α) : ℕ :=
  let bisect_i := bisectRight key x a 0 a.length
  if bisect_i = 0 then 0
  else if bisect_i = a.length then a.length - 1
  else if |x - keyAt key a bisect_i| ≤ |x - keyAt key a (bisect_i - 1)| then bisect_i
  else bisect_i - 1

/-- The source's `most_closed(x, a, key=key)`: `a[index_most_closed(...)]`.
`none` models the `IndexError` Python raises when the returned index is out of
range (which happens exactly when `a` is empty). -/
def most_closed (key : α → ℚ) (x : ℚ) (a : List α) : Option α :=
  a.get? (index_most_closed key x a)

/-- A tolerance argument as the source passes it around: either a plain float
(absolute window) or a `Ppm` object (relative window). -/
inductive Tol where
  | abs (v : ℚ)
  | ppm (p : ℚ)

/-- The resolution `tol(mz) if isinstance(tol, Ppm) else tol` performed at each
use site, with `Ppm.__call__` returning `self._ppm * mz / 1e6`. -/
def Tol.resolve : Tol → ℚ → ℚ
  | .abs v, _ => v
  | .ppm p, mz => p * mz / 1000000

/-- The frozen attrs class `Ion(mz, charge)`. -/
structure Ion where
  mz : ℚ
  charge : ℤ
deriving DecidableEq

/-- Comparison of ions by m/z, the sort key `attrgetter("mz")` used by
`DDAList`'s converter. -/
def mzLE (i j : Ion) : Prop := i.mz ≤ j.mz

instance : DecidableRel mzLE := fun i j => inferInstanceAs (Decidable (i.mz ≤ j.mz))

instance : IsTotal Ion mzLE := ⟨fun a b => le_total a.mz b.mz⟩

instance : IsTrans Ion mzLE := ⟨fun _ _ _ h h' => le_trans h h'⟩

/-- The attrs class `DDAList`, holding the reference ion list `_data`. -/
structure DDAList where
  data : List Ion

/-- The `DDAList` constructor: the attrs converter
`lambda l: sorted(l, key=attrgetter("mz"))` sorts a fresh list by m/z.
Python's `sorted` is a stable sort, as is `List.insertionSort`, so the two
produce the same list. -/
def DDAList.ofIons (l : List Ion) : DDAList :=
  ⟨l.insertionSort mzLE⟩

/-- The source's `DDAList.find(mz, tol, charge)`: take the closest ion by
m/z, resolve the tolerance, and return it when it is inside the window with the
same charge, else `None`. The `Except.error` branch models the `IndexError`
propagated from `most_closed` when the list is empty. -/
def DDAList.find (d : DDAList) (mz : ℚ) (tol : Tol) (charge : ℤ) :
    Except String (Option Ion) :=
  match most_closed Ion.mz mz d.data with
  | none => .error "IndexError"
  | some candidate =>
      .ok (if |candidate.mz - mz| ≤ tol.resolve mz ∧ candidate.charge = charge
        then some candidate else none)

/-- The frozen attrs class `Spectrum`, with the two parallel fragment arrays. -/
structure Spectrum where
  scan : ℤ
  precursor_mz : ℚ
  precursor_charge : ℤ
  mz_a : List ℚ
  intensity_a : List ℚ

/-- The source's `Spectrum.get_intensity(mz, tol)`: resolve the tolerance,
find the fragment index closest to `mz`, and return its intensity under a
strict comparison, else `0`. The `Except.error` branches model the
`IndexError` raised by `self.mz_a[peak_i]` (and then
`self.intensity_a[peak_i]`) when out of range. -/
def Spectrum.get_intensity (s : Spectrum) (mz : ℚ) (tol : Tol) : Except String ℚ :=
  let w := tol.resolve mz
  let peak_i := index_most_closed id mz s.mz_a
  match s.mz_a.get? peak_i with
  | none => .error "IndexError"
  | some peak_mz =>
      if |peak_mz - mz| < w then
        match s.intensity_a.get? peak_i with
        | none => .error "IndexError"
        | some inten => .ok inten
      else .ok 0

/-- The frozen attrs class `SearchRecord`. The `reporters` dict is modelled as
an association list in insertion order (Python dicts preserve it). -/
structure SearchRecord where
  scan : ℤ
  precursor_mz : ℚ
  reporters : List (ℚ × ℚ)

/-- The helper `min_diff` inside `ReporterSearcher._check_ms2_tol`, modelled
faithfully to the source's semantics. Note two slips kept on purpose:
the loop `for i in range(1, len(a) - 1)` stops one pair short of the end, and
`if diff := a[i] - a[i - 1] < min_:` binds `diff` to the *boolean*
`a[i] - a[i-1] < min_` (the walrus operator has lower precedence than `<`), so
when the branch is taken `min_` becomes `True`, which compares as the number
`1` from then on. `⊤` models the starting value `float("Inf")` and the
stored `True` is modelled by its numeric value `1`. -/
def min_diff (a0 : List ℚ) : WithTop ℚ :=
  let a := a0.insertionSort (· ≤ ·)
  (List.range' 1 (a.length - 1 - 1)).foldl
    (fun m i =>
      if (↑(keyAt id a i - keyAt id a (i - 1)) : WithTop ℚ) < m then ((1 : ℚ) : WithTop ℚ)
      else m)
    ⊤

/-- Python's `max` over a list, defined (as in Python) only for non-empty
input; the `[]` case returns junk `0` (Python raises, but the only call site
passes the constant non-empty `REPORTERS`). -/
def maxQ : List ℚ → ℚ
  | [] => 0
  | h :: t => t.foldl max h

/-- The attrs validator `ReporterSearcher._check_ms2_tol`: resolve the ms2
tolerance at `max(REPORTERS)` and raise `ValueError` when it exceeds
`min_diff(REPORTERS)`. -/
def checkMs2Tol (value : Tol) : Except String Unit :=
  let reporter_min_diff := min_diff REPORTERS
  let tol := value.resolve (maxQ REPORTERS)
  if (↑tol : WithTop ℚ) > reporter_min_diff then .error "MS2 tolerance too large"
  else .ok ()

/-- The attrs class `ReporterSearcher` (fields only; validation happens in
`ReporterSearcher.construct`). -/
structure ReporterSearcher where
  dda_list : DDAList
  ms1_tol : Tol
  ms2_tol : Tol

/-- Constructing a `ReporterSearcher`: attrs runs the `ms2_tol` validator, so
construction fails exactly when `checkMs2Tol` raises. -/
def ReporterSearcher.construct (d : DDAList) (ms1 ms2 : Tol) :
    Except String ReporterSearcher :=
  (checkMs2Tol ms2).map fun _ => ⟨d, ms1, ms2⟩

/-- The body of `ReporterSearcher.run` for a single spectrum: look up the
precursor; on a match build the record with the reference ion's m/z and the
reporter dict `{mz: spec.get_intensity(mz, tol=self.ms2_tol) for mz in
REPORTERS}`; on `None` produce nothing. (An `Ion` is always truthy in Python,
so the guard `if precursor := ...` tests exactly for `None`.) -/
def searchStep (rs : ReporterSearcher) (s : Spectrum) :
    Except String (Option SearchRecord) := do
  match ← rs.dda_list.find s.precursor_mz rs.ms1_tol s.precursor_charge with
  | none => pure none
  | some precursor => do
      let reporters ← REPORTERS.mapM fun mz => do
        let v ← s.get_intensity mz rs.ms2_tol
        pure (mz, v)
      pure (some ⟨s.scan, precursor.mz, reporters⟩)

/-- The source's `ReporterSearcher.run`: one pass over the spectra in order, yielding one
record per matched spectrum and skipping unmatched ones. The lazy generator is
modelled as the list of all yielded records; an exception anywhere aborts the
whole run, as it would abort the Python iteration. -/
def ReporterSearcher.run (rs : ReporterSearcher) : List Spectrum → Except String (List SearchRecord)
  | [] => .ok []
  | s :: rest => do
    match ← searchStep rs s with
    | none => rs.run rest
    | some r => do
        let others ← rs.run rest
        pure (r :: others)

/-- Follows the claim's words for C2: the intensity value `run` is claimed to
store for one reporter, read off from a successful `get_intensity` call (junk
`0` if the call raised; the claim's hypotheses rule that out). -/
def specReporterIntensity (s : Spectrum) (tol : Tol) (mz : ℚ) : ℚ :=
  ((s.get_intensity mz tol).toOption).getD 0

/-- Follows the claim's words for C2: the record `run` is claimed to emit for
one spectrum — `none` (skip) when the precursor lookup misses, otherwise the
record with the spectrum's scan, the matched reference ion's m/z, and one
reporter entry per `REPORTERS` value in that order. -/
def specRecordFor (d : DDAList) (ms1 ms2 : Tol) (s : Spectrum) : Option SearchRecord :=
  ((d.find s.precursor_mz ms1 s.precursor_charge).toOption.join).map fun ion =>
    ⟨s.scan, ion.mz, REPORTERS.map fun mz => (mz, specReporterIntensity s ms2 mz)⟩

/-- Modelled from the spec (section 4.4 validation rule): the true minimum gap
of a list, "the minimum of all consecutive differences across the full sorted
list", used to compare the source's `min_diff` against its intent
(`⊤` when the list has fewer than two elements). -/
def specMinGap (l : List ℚ) : WithTop ℚ :=
  ((List.range' 1 ((l.insertionSort (· ≤ ·)).length - 1)).map
    (fun i => keyAt id (l.insertionSort (· ≤ ·)) i -
      keyAt id (l.insertionSort (· ≤ ·)) (i - 1))).minimum

/-! ### Properties of the binary search -/

/-- Evaluating `keyAt` at an in-range position is `key` of the element there. -/
theorem keyAt_eq_get (key : α → ℚ) (a : List α) {i : ℕ} (h : i < a.length) :
    keyAt key a i = key (a.get ⟨i, h⟩) := by
  simp [keyAt, List.getElem?_eq_getElem h, List.get_eq_getElem]

/-- Along a list sorted under `key`, `keyAt` is monotone on in-range indices. -/
theorem keyAt_mono (key : α → ℚ) {a : List α}
    (hs : a.Sorted (fun u v => key u ≤ key v)) {i j : ℕ}
    (hij : i ≤ j) (hj : j < a.length) : keyAt key a i ≤ keyAt key a j := by
  haveI : IsRefl α (fun u v => key u ≤ key v) := ⟨fun _ => le_refl _⟩
  have hi : i < a.length := lt_of_le_of_lt hij hj
  rw [keyAt_eq_get key a hi, keyAt_eq_get key a hj]
  exact hs.rel_get_of_le (by exact hij)

/-- The binary-search result stays between `lo` and `hi` (no sortedness
needed). -/
theorem bisectRight_bounds (key : α → ℚ) (x : ℚ) (a : List α) :
    ∀ (n lo hi : ℕ), hi - lo ≤ n → lo ≤ hi →
      lo ≤ bisectRight key x a lo hi ∧ bisectRight key x a lo hi ≤ hi := by
  intro n
  induction n with
  | zero =>
    intro lo hi hn hlh
    have heq : lo = hi := by omega
    rw [bisectRight, if_neg (by omega)]
    omega
  | succ n ih =>
    intro lo hi hn hlh
    by_cases h : lo < hi
    · rw [bisectRight, if_pos h]
      by_cases hc : x < keyAt key a ((lo + hi) / 2)
      · rw [if_pos hc]
        have := ih lo ((lo + hi) / 2) (by omega) (by omega)
        omega
      · rw [if_neg hc]
        have := ih ((lo + hi) / 2 + 1) hi (by omega) (by omega)
        omega
    · rw [bisectRight, if_neg h]
      omega

/-- Characterisation of the binary search on a list sorted under `key`: every
index strictly below the returned insertion point holds a key `≤ x`, and every
index from the insertion point up to `hi` holds a key `> x`. -/
theorem bisectRight_spec (key : α → ℚ) (x : ℚ) {a : List α}
    (hs : a.Sorted (fun u v => key u ≤ key v)) :
    ∀ (n lo hi : ℕ), hi - lo ≤ n → lo ≤ hi → hi ≤ a.length →
      (∀ j, lo ≤ j → j < bisectRight key x a lo hi → keyAt key a j ≤ x) ∧
      (∀ j, bisectRight key x a lo hi ≤ j → j < hi → x < keyAt key a j) := by
  intro n
  induction n with
  | zero =>
    intro lo hi hn hlh hha
    rw [bisectRight, if_neg (by omega)]
    exact ⟨fun j h1 h2 => by omega, fun j h1 h2 => by omega⟩
  | succ n ih =>
    intro lo hi hn hlh hha
    by_cases h : lo < hi
    · have hmlo : lo ≤ (lo + hi) / 2 := by omega
      have hmhi : (lo + hi) / 2 < hi := by omega
      have hmlen : (lo + hi) / 2 < a.length := lt_of_lt_of_le hmhi hha
      rw [bisectRight, if_pos h]
      by_cases hc : x < keyAt key a ((lo + hi) / 2)
      · rw [if_pos hc]
        obtain ⟨hb1, hb2⟩ := bisectRight_bounds key x a n lo ((lo + hi) / 2) (by omega) hmlo
        obtain ⟨h3, h4⟩ := ih lo ((lo + hi) / 2) (by omega) hmlo (le_of_lt hmlen)
        refine ⟨h3, fun j hj1 hj2 => ?_⟩
        by_cases hjm : j < (lo + hi) / 2
        · exact h4 j hj1 hjm
        · have hjlen : j < a.length := lt_of_lt_of_le hj2 hha
          exact lt_of_lt_of_le hc (keyAt_mono key hs (by omega) hjlen)
      · rw [if_neg hc]
        obtain ⟨hb1, hb2⟩ := bisectRight_bounds key x a n ((lo + hi) / 2 + 1) hi (by omega) (by omega)
        obtain ⟨h3, h4⟩ := ih ((lo + hi) / 2 + 1) hi (by omega) (by omega) hha
        refine ⟨fun j hj1 hj2 => ?_, h4⟩
        by_cases hjm : (lo + hi) / 2 + 1 ≤ j
        · exact h3 j hjm hj2
        · exact le_trans (keyAt_mono key hs (by omega) hmlen) (le_of_not_lt hc)
    · rw [bisectRight, if_neg h]
      exact ⟨fun j h1 h2 => by omega, fun j h1 h2 => by omega⟩

/-- The insertion point is determined by the two-sided characterisation; used
to evaluate the binary search on concrete sorted inputs. -/
theorem bisectRight_eq_of (key : α → ℚ) (x : ℚ) {a : List α}
    (hs : a.Sorted (fun u v => key u ≤ key v)) {p : ℕ} (hp : p ≤ a.length)
    (h1 : ∀ j, j < p → keyAt key a j ≤ x)
    (h2 : ∀ j, p ≤ j → j < a.length → x < keyAt key a j) :
    bisectRight key x a 0 a.length = p := by
  obtain ⟨hb1, hb2⟩ := bisectRight_bounds key x a a.length 0 a.length (by omega) (Nat.zero_le _)
  obtain ⟨q3, q4⟩ := bisectRight_spec key x hs a.length 0 a.length (by omega) (Nat.zero_le _) le_rfl
  set q := bisectRight key x a 0 a.length with hq
  rcases lt_trichotomy q p with hlt | heq | hgt
  · have hx1 := h1 q hlt
    have hx2 := q4 q le_rfl (lt_of_lt_of_le hlt hp)
    linarith
  · exact heq
  · have hx1 := q3 p (Nat.zero_le p) hgt
    have hx2 := h2 p le_rfl (lt_of_lt_of_le hgt hb2)
    linarith

/-! ### Properties of `index_most_closed` -/

/-- On a non-empty list the returned index is in range (no sortedness
needed). -/
theorem index_most_closed_lt_length (key : α → ℚ) (x : ℚ) {a : List α} (hne : a ≠ []) :
    index_most_closed key x a < a.length := by
  have hlen : 0 < a.length := List.length_pos.mpr hne
  obtain ⟨hb1, hb2⟩ := bisectRight_bounds key x a a.length 0 a.length (by omega) (Nat.zero_le _)
  simp only [index_most_closed]
  set p := bisectRight key x a 0 a.length with hp
  split_ifs <;> omega

/-- On a non-empty list sorted under `key`, the returned index minimises the
absolute difference to the query over all indices. -/
theorem index_most_closed_min (key : α → ℚ) (x : ℚ) {a : List α}
    (hne : a ≠ []) (hs : a.Sorted (fun u v => key u ≤ key v)) :
    ∀ j, j < a.length →
      |x - keyAt key a (index_most_closed key x a)| ≤ |x - keyAt key a j| := by
  have hlen : 0 < a.length := List.length_pos.mpr hne
  obtain ⟨hb1, hb2⟩ := bisectRight_bounds key x a a.length 0 a.length (by omega) (Nat.zero_le _)
  obtain ⟨hlow, hhigh⟩ :=
    bisectRight_spec key x hs a.length 0 a.length (by omega) (Nat.zero_le _) le_rfl
  intro j hj
  simp only [index_most_closed]
  set p := bisectRight key x a 0 a.length with hp
  have low_bound : ∀ k, k < p → k < a.length →
      |x - keyAt key a (p - 1)| ≤ |x - keyAt key a k| := by
    intro k hk hk2
    have h1 : keyAt key a k ≤ x := hlow k (Nat.zero_le k) hk
    have hp1 : keyAt key a (p - 1) ≤ x := hlow (p - 1) (Nat.zero_le _) (by omega)
    have hmono : keyAt key a k ≤ keyAt key a (p - 1) := keyAt_mono key hs (by omega) (by omega)
    rw [abs_of_nonneg (by linarith), abs_of_nonneg (by linarith)]
    linarith
  have high_bound : ∀ k, p ≤ k → k < a.length →
      |x - keyAt key a p| ≤ |x - keyAt key a k| := by
    intro k hk hk2
    have hplen : p < a.length := lt_of_le_of_lt hk hk2
    have h1 : x < keyAt key a k := hhigh k hk hk2
    have hpk : x < keyAt key a p := hhigh p le_rfl hplen
    have hmono : keyAt key a p ≤ keyAt key a k := keyAt_mono key hs hk hk2
    rw [abs_sub_comm x (keyAt key a p), abs_sub_comm x (keyAt key a k),
      abs_of_nonneg (by linarith), abs_of_nonneg (by linarith)]
    linarith
  split_ifs with h0 hl hc
  · have := high_bound j (by omega) hj
    rw [h0] at this
    exact this
  · have := low_bound j (by omega) hj
    rw [hl] at this
    exact this
  · by_cases hjp : j < p
    · exact le_trans hc (low_bound j hjp hj)
    · exact high_bound j (by omega) hj
  · by_cases hjp : j < p
    · exact low_bound j hjp hj
    · exact le_trans (le_of_lt (lt_of_not_le hc)) (high_bound j (by omega) hj)

/-- The boundary and tie behaviour of `index_most_closed`, read off the
definition: insertion point `0` gives index `0`, insertion point `len` gives
`len - 1`, and an interior tie gives the *higher* of the two candidate
indices. -/
theorem index_most_closed_cases (key : α → ℚ) (x : ℚ) (a : List α) :
    (bisectRight key x a 0 a.length = 0 → index_most_closed key x a = 0) ∧
    (bisectRight key x a 0 a.length = a.length →
      index_most_closed key x a = a.length - 1) ∧
    (∀ p, p = bisectRight key x a 0 a.length → 0 < p → p < a.length →
      |x - keyAt key a p| = |x - keyAt key a (p - 1)| →
      index_most_closed key x a = p) := by
  refine ⟨fun h0 => ?_, fun hl => ?_, fun p hpdef hp0 hpl htie => ?_⟩
  · simp only [index_most_closed]
    rw [if_pos h0]
  · simp only [index_most_closed]
    by_cases h0 : bisectRight key x a 0 a.length = 0
    · rw [if_pos h0]
      omega
    · rw [if_neg h0, if_pos hl]
  · simp only [index_most_closed]
    rw [if_neg (by omega), if_neg (by omega), ← hpdef, if_pos (le_of_eq htie)]

/-- Running `index_most_closed` on the empty list: the insertion point is `0`, so the
first branch returns `0` — no element is ever accessed and nothing is
raised. -/
theorem index_most_closed_nil (key : α → ℚ) (x : ℚ) :
    index_most_closed key x ([] : List α) = 0 := by
  have hb : bisectRight key x ([] : List α) 0 0 = 0 := by
    rw [bisectRight]
    simp
  simp [index_most_closed, hb]

/-- C1 (amended): for a non-empty sequence ascending under the key and any
query `x`, `index_most_closed` returns an in-range index minimising
`|x - key (a[i])|` over all indices; at the boundaries, insertion point `0`
gives index `0` and insertion point `len` gives `len - 1`; but when the two
adjacent candidates around an interior insertion point `p` tie, the *higher*
index `p` is returned (Python's `min([p, p - 1], ...)` keeps the first listed
element), not the lower one as the claim states. -/
theorem claim_C1 (key : α → ℚ) (x : ℚ) (a : List α)
    (hne : a ≠ []) (hs : a.Sorted (fun u v => key u ≤ key v)) :
    index_most_closed key x a < a.length ∧
    (∀ j, j < a.length →
      |x - keyAt key a (index_most_closed key x a)| ≤ |x - keyAt key a j|) ∧
    (bisectRight key x a 0 a.length = 0 → index_most_closed key x a = 0) ∧
    (bisectRight key x a 0 a.length = a.length →
      index_most_closed key x a = a.length - 1) ∧
    (∀ p, p = bisectRight key x a 0 a.length → 0 < p → p < a.length →
      |x - keyAt key a p| = |x - keyAt key a (p - 1)| →
      index_most_closed key x a = p) :=
  ⟨index_most_closed_lt_length key x hne, index_most_closed_min key x hne hs,
    (index_most_closed_cases key x a).1, (index_most_closed_cases key x a).2.1,
    (index_most_closed_cases key x a).2.2⟩

/-- Witness for C1 at the test inputs `x = 4`, `a = [1, 2, 3, 7, 8]`. -/
theorem claim_C1_witness :
    (([1, 2, 3, 7, 8] : List ℚ) ≠ [] ∧
      ([1, 2, 3, 7, 8] : List ℚ).Sorted (fun u v => id u ≤ id v)) ∧
    (index_most_closed id 4 ([1, 2, 3, 7, 8] : List ℚ) < ([1, 2, 3, 7, 8] : List ℚ).length ∧
      (∀ j, j < ([1, 2, 3, 7, 8] : List ℚ).length →
        |4 - keyAt id ([1, 2, 3, 7, 8] : List ℚ)
            (index_most_closed id 4 ([1, 2, 3, 7, 8] : List ℚ))| ≤
          |4 - keyAt id ([1, 2, 3, 7, 8] : List ℚ) j|) ∧
      (bisectRight id 4 ([1, 2, 3, 7, 8] : List ℚ) 0 ([1, 2, 3, 7, 8] : List ℚ).length = 0 →
        index_most_closed id 4 ([1, 2, 3, 7, 8] : List ℚ) = 0) ∧
      (bisectRight id 4 ([1, 2, 3, 7, 8] : List ℚ) 0 ([1, 2, 3, 7, 8] : List ℚ).length =
          ([1, 2, 3, 7, 8] : List ℚ).length →
        index_most_closed id 4 ([1, 2, 3, 7, 8] : List ℚ) =
          ([1, 2, 3, 7, 8] : List ℚ).length - 1) ∧
      (∀ p, p = bisectRight id 4 ([1, 2, 3, 7, 8] : List ℚ) 0 ([1, 2, 3, 7, 8] : List ℚ).length →
        0 < p → p < ([1, 2, 3, 7, 8] : List ℚ).length →
        |4 - keyAt id ([1, 2, 3, 7, 8] : List ℚ) p| =
          |4 - keyAt id ([1, 2, 3, 7, 8] : List ℚ) (p - 1)| →
        index_most_closed id 4 ([1, 2, 3, 7, 8] : List ℚ) = p)) :=
  ⟨⟨by simp, by norm_num [List.sorted_cons]⟩,
    claim_C1 id 4 ([1, 2, 3, 7, 8] : List ℚ) (by simp) (by norm_num [List.sorted_cons])⟩

/-- C1's tie-break direction is false as stated: on the ascending list
`[1, 3]` with query `2`, indices `0` and `1` are equally close, yet the
function returns the higher index `1`, not the lower index `0`. -/
theorem claim_C1_counterexample :
    ([1, 3] : List ℚ).Sorted (fun u v => id u ≤ id v) ∧
    |2 - keyAt id ([1, 3] : List ℚ) 0| = |2 - keyAt id ([1, 3] : List ℚ) 1| ∧
    index_most_closed id 2 ([1, 3] : List ℚ) = 1 := by
  have hbis : bisectRight id 2 ([1, 3] : List ℚ) 0 ([1, 3] : List ℚ).length = 1 := by
    apply bisectRight_eq_of id 2 (by norm_num [List.sorted_cons])
    · simp
    · intro j hj
      have hj0 : j = 0 := by omega
      subst hj0
      norm_num [keyAt]
    · intro j h1 h2
      have hj1 : j = 1 := by
        simp at h2
        omega
      subst hj1
      norm_num [keyAt]
  refine ⟨by norm_num [List.sorted_cons], ?_, ?_⟩
  · norm_num [keyAt]
  · simp only [index_most_closed, hbis]
    norm_num [keyAt]

/-- C5 (amended): invoking `index_most_closed` on an empty sequence does not
fail — Python's `bisect` returns insertion point `0` and the `if bisect_i == 0`
branch returns index `0` before any element access; the failure (an
`IndexError`, not an InvalidArgument-style check) only occurs when the
returned index is used to access an element, as in `most_closed`. -/
theorem claim_C5 (key : α → ℚ) (x : ℚ) :
    index_most_closed key x ([] : List α) = 0 ∧
    most_closed key x ([] : List α) = none :=
  ⟨index_most_closed_nil key x, by simp [most_closed]⟩

/-- C5 is false as stated: at query `5` on the empty sequence the search
returns the value `0` instead of aborting. -/
theorem claim_C5_counterexample :
    index_most_closed id 5 ([] : List ℚ) = 0 :=
  index_most_closed_nil id 5

/-- C4 (amended): on an empty reference list, `find` does not return the
NotFound outcome: the unguarded `most_closed` call indexes into the empty
list, so an `IndexError` propagates out of `find` for every query. -/
theorem claim_C4 (mz : ℚ) (tol : Tol) (charge : ℤ) :
    DDAList.find ⟨[]⟩ mz tol charge = .error "IndexError" := by
  simp [DDAList.find, most_closed]

/-- C4 is false as stated: the concrete query `(mz 1, tol 1, charge 2)` on the
empty reference list raises instead of returning NotFound (`none`). -/
theorem claim_C4_counterexample :
    DDAList.find ⟨[]⟩ 1 (Tol.abs 1) 2 = .error "IndexError" ∧
    DDAList.find ⟨[]⟩ 1 (Tol.abs 1) 2 ≠ .ok none := by
  constructor
  · simp [DDAList.find, most_closed]
  · simp [DDAList.find, most_closed]

/-- C8: a relative (ppm) tolerance resolves to `ppm * reference / 1_000_000`,
an absolute tolerance resolves to its stored value regardless of the
reference, and in particular `Ppm(10)` at reference `1000` gives `0.01`. -/
theorem claim_C8 :
    (∀ r p : ℚ, (Tol.ppm p).resolve r = p * r / 1000000) ∧
    (∀ r v : ℚ, (Tol.abs v).resolve r = v) ∧
    (Tol.ppm 10).resolve 1000 = 0.01 := by
  refine ⟨fun r p => rfl, fun r v => rfl, ?_⟩
  show (10 : ℚ) * 1000 / 1000000 = 0.01
  norm_num

/-- C9: `DDAList` construction produces a permutation of the input ions
(duplicates retained) sorted ascending by m/z. The converter sorts a fresh
list (`sorted` builds a new list, the input is untouched), and in the model no
operation takes a `DDAList` and returns a modified one, so the invariant holds
for the value's lifetime. -/
theorem claim_C9 (l : List Ion) :
    (DDAList.ofIons l).data.Perm l ∧ (DDAList.ofIons l).data.Sorted mzLE :=
  ⟨List.perm_insertionSort mzLE l, List.sorted_insertionSort mzLE l⟩

/-- Reduction of `find` once the closest candidate is known. -/
theorem find_reduce (d : DDAList) (mz : ℚ) (tol : Tol) (charge : ℤ) {c : Ion}
    (h : most_closed Ion.mz mz d.data = some c) :
    d.find mz tol charge =
      .ok (if |c.mz - mz| ≤ tol.resolve mz ∧ c.charge = charge then some c else none) := by
  simp only [DDAList.find]
  rw [h]

/-- Calling `find` on a non-empty list never raises: the closest candidate exists, is
a member, and the result is the source's window-and-charge filter on it. -/
theorem find_spec (d : DDAList) (mz : ℚ) (tol : Tol) (charge : ℤ)
    (hne : d.data ≠ []) :
    ∃ c, most_closed Ion.mz mz d.data = some c ∧ c ∈ d.data ∧
      d.find mz tol charge =
        .ok (if |c.mz - mz| ≤ tol.resolve mz ∧ c.charge = charge then some c else none) := by
  have hlt := index_most_closed_lt_length Ion.mz mz hne
  have hget : d.data.get? (index_most_closed Ion.mz mz d.data) =
      some (d.data.get ⟨index_most_closed Ion.mz mz d.data, hlt⟩) := List.get?_eq_get hlt
  have hmc : most_closed Ion.mz mz d.data =
      some (d.data.get ⟨index_most_closed Ion.mz mz d.data, hlt⟩) := by
    simp [most_closed, hget]
  exact ⟨d.data.get ⟨index_most_closed Ion.mz mz d.data, hlt⟩, hmc, List.get_mem _ _ _,
    find_reduce d mz tol charge hmc⟩

/-- C6: on a non-empty reference list sorted by m/z, `find` returns the closest
ion exactly when it is within the resolved window (non-strict) and has the
queried charge, and `None` otherwise — never an error. -/
theorem claim_C6 (d : DDAList) (mz : ℚ) (tol : Tol) (charge : ℤ)
    (hne : d.data ≠ []) (hs : d.data.Sorted mzLE) :
    ∃ c, c ∈ d.data ∧
      (∀ ion ∈ d.data, |c.mz - mz| ≤ |ion.mz - mz|) ∧
      d.find mz tol charge =
        .ok (if |c.mz - mz| ≤ tol.resolve mz ∧ c.charge = charge then some c else none) := by
  obtain ⟨c, hmc, hmem, hfind⟩ := find_spec d mz tol charge hne
  refine ⟨c, hmem, ?_, hfind⟩
  intro ion hion
  obtain ⟨⟨jv, hjlt⟩, hjion⟩ := List.mem_iff_get.mp hion
  have hkey : keyAt Ion.mz d.data (index_most_closed Ion.mz mz d.data) = c.mz := by
    simp only [most_closed] at hmc
    simp only [keyAt]
    rw [hmc]
    simp
  have hkeyj : keyAt Ion.mz d.data jv = ion.mz := by
    simp only [keyAt]
    rw [List.get?_eq_get hjlt, hjion]
    simp
  have hmin := index_most_closed_min Ion.mz mz hne (by exact hs) jv hjlt
  rw [hkey, hkeyj] at hmin
  rw [abs_sub_comm c.mz mz, abs_sub_comm ion.mz mz]
  exact hmin

/-- Witness for C6 at the test reference list and the query
`(1000.5, tol 1, charge 3)`. -/
theorem claim_C6_witness :
    ((⟨[⟨1000, 3⟩, ⟨2000, 3⟩, ⟨3000, 4⟩]⟩ : DDAList).data ≠ [] ∧
      (⟨[⟨1000, 3⟩, ⟨2000, 3⟩, ⟨3000, 4⟩]⟩ : DDAList).data.Sorted mzLE) ∧
    (∃ c, c ∈ (⟨[⟨1000, 3⟩, ⟨2000, 3⟩, ⟨3000, 4⟩]⟩ : DDAList).data ∧
      (∀ ion ∈ (⟨[⟨1000, 3⟩, ⟨2000, 3⟩, ⟨3000, 4⟩]⟩ : DDAList).data,
        |c.mz - 1000.5| ≤ |ion.mz - 1000.5|) ∧
      (⟨[⟨1000, 3⟩, ⟨2000, 3⟩, ⟨3000, 4⟩]⟩ : DDAList).find 1000.5 (Tol.abs 1) 3 =
        .ok (if |c.mz - 1000.5| ≤ (Tol.abs 1).resolve 1000.5 ∧ c.charge = 3
          then some c else none)) :=
  ⟨⟨by simp, by norm_num [List.sorted_cons, mzLE]⟩,
    claim_C6 ⟨[⟨1000, 3⟩, ⟨2000, 3⟩, ⟨3000, 4⟩]⟩ 1000.5 (Tol.abs 1) 3 (by simp)
      (by norm_num [List.sorted_cons, mzLE])⟩

/-- Reduction of `get_intensity` once both parallel-array reads at the closest
index are known to succeed. -/
theorem get_intensity_reduce (s : Spectrum) (mz : ℚ) (tol : Tol) {v w : ℚ}
    (h1 : s.mz_a.get? (index_most_closed id mz s.mz_a) = some v)
    (h2 : s.intensity_a.get? (index_most_closed id mz s.mz_a) = some w) :
    s.get_intensity mz tol = if |v - mz| < tol.resolve mz then .ok w else .ok 0 := by
  simp only [Spectrum.get_intensity]
  rw [h1, h2]

/-- C7: on a spectrum with non-empty ascending fragments and parallel
intensities, `get_intensity` returns the intensity of the closest fragment
under a strict window comparison, `0` when the difference reaches or exceeds
the window, and never raises. -/
theorem claim_C7 (s : Spectrum) (mz : ℚ) (tol : Tol)
    (hne : s.mz_a ≠ []) (hs : s.mz_a.Sorted (· ≤ ·))
    (hlen : s.mz_a.length = s.intensity_a.length) :
    ∃ v inten,
      s.mz_a.get? (index_most_closed id mz s.mz_a) = some v ∧
      s.intensity_a.get? (index_most_closed id mz s.mz_a) = some inten ∧
      (∀ u ∈ s.mz_a, |v - mz| ≤ |u - mz|) ∧
      s.get_intensity mz tol = .ok (if |v - mz| < tol.resolve mz then inten else 0) := by
  have hlt := index_most_closed_lt_length id mz hne
  have hlt2 : index_most_closed id mz s.mz_a < s.intensity_a.length := hlen ▸ hlt
  refine ⟨s.mz_a.get ⟨index_most_closed id mz s.mz_a, hlt⟩,
    s.intensity_a.get ⟨index_most_closed id mz s.mz_a, hlt2⟩,
    List.get?_eq_get hlt, List.get?_eq_get hlt2, ?_, ?_⟩
  · intro u hu
    obtain ⟨⟨jv, hjlt⟩, hju⟩ := List.mem_iff_get.mp hu
    have hsid : s.mz_a.Sorted (fun u v => id u ≤ id v) := hs
    have hmin := index_most_closed_min id mz hne hsid jv hjlt
    have h1 : keyAt id s.mz_a (index_most_closed id mz s.mz_a) =
        s.mz_a.get ⟨index_most_closed id mz s.mz_a, hlt⟩ := by
      simp only [keyAt]
      rw [List.get?_eq_get hlt]
      simp
    have h2 : keyAt id s.mz_a jv = u := by
      simp only [keyAt]
      rw [List.get?_eq_get hjlt, hju]
      simp
    rw [h1, h2] at hmin
    rw [abs_sub_comm _ mz, abs_sub_comm u mz]
    exact hmin
  · rw [get_intensity_reduce s mz tol (List.get?_eq_get hlt) (List.get?_eq_get hlt2)]
    split_ifs <;> rfl

/-- Witness for C7 at the test spectrum and the query `(100.5, tol 1)`. -/
theorem claim_C7_witness :
    ((⟨1, 1000, 3, [100, 200, 300], [1000000, 2000000, 3000000]⟩ : Spectrum).mz_a ≠ [] ∧
      (⟨1, 1000, 3, [100, 200, 300], [1000000, 2000000, 3000000]⟩ : Spectrum).mz_a.Sorted
        (· ≤ ·) ∧
      (⟨1, 1000, 3, [100, 200, 300], [1000000, 2000000, 3000000]⟩ : Spectrum).mz_a.length =
        (⟨1, 1000, 3, [100, 200, 300], [1000000, 2000000, 3000000]⟩ : Spectrum).intensity_a.length) ∧
    (∃ v inten,
      (⟨1, 1000, 3, [100, 200, 300], [1000000, 2000000, 3000000]⟩ : Spectrum).mz_a.get?
        (index_most_closed id 100.5
          (⟨1, 1000, 3, [100, 200, 300], [1000000, 2000000, 3000000]⟩ : Spectrum).mz_a) = some v ∧
      (⟨1, 1000, 3, [100, 200, 300], [1000000, 2000000, 3000000]⟩ : Spectrum).intensity_a.get?
        (index_most_closed id 100.5
          (⟨1, 1000, 3, [100, 200, 300], [1000000, 2000000, 3000000]⟩ : Spectrum).mz_a) =
        some inten ∧
      (∀ u ∈ (⟨1, 1000, 3, [100, 200, 300], [1000000, 2000000, 3000000]⟩ : Spectrum).mz_a,
        |v - 100.5| ≤ |u - 100.5|) ∧
      (⟨1, 1000, 3, [100, 200, 300], [1000000, 2000000, 3000000]⟩ : Spectrum).get_intensity 100.5
        (Tol.abs 1) = .ok (if |v - 100.5| < (Tol.abs 1).resolve 100.5 then inten else 0)) :=
  ⟨⟨by simp, by norm_num [List.sorted_cons], by simp⟩,
    claim_C7 ⟨1, 1000, 3, [100, 200, 300], [1000000, 2000000, 3000000]⟩ 100.5 (Tol.abs 1)
      (by simp) (by norm_num [List.sorted_cons]) (by simp)⟩

/-- C10: when the resolved window is not positive, the strict comparison
`|peak - mz| < w` can never hold (the absolute difference is non-negative), so
`get_intensity` returns `0` even for a fragment exactly at the query m/z. -/
theorem claim_C10 (s : Spectrum) (mz : ℚ) (tol : Tol)
    (hne : s.mz_a ≠ []) (hlen : s.mz_a.length = s.intensity_a.length)
    (hmem : mz ∈ s.mz_a) (htol : tol.resolve mz ≤ 0) :
    s.get_intensity mz tol = .ok 0 := by
  have hlt := index_most_closed_lt_length id mz hne
  have hlt2 : index_most_closed id mz s.mz_a < s.intensity_a.length := hlen ▸ hlt
  have habs : ¬ |s.mz_a.get ⟨index_most_closed id mz s.mz_a, hlt⟩ - mz| < tol.resolve mz := by
    have := abs_nonneg (s.mz_a.get ⟨index_most_closed id mz s.mz_a, hlt⟩ - mz)
    linarith
  rw [get_intensity_reduce s mz tol (List.get?_eq_get hlt) (List.get?_eq_get hlt2),
    if_neg habs]

/-- Witness for C10: a fragment sits exactly at the query m/z `100`, yet with
absolute tolerance `0` the returned intensity is `0`. -/
theorem claim_C10_witness :
    ((⟨1, 1000, 3, [100, 200, 300], [1000000, 2000000, 3000000]⟩ : Spectrum).mz_a ≠ [] ∧
      (⟨1, 1000, 3, [100, 200, 300], [1000000, 2000000, 3000000]⟩ : Spectrum).mz_a.length =
        (⟨1, 1000, 3, [100, 200, 300], [1000000, 2000000, 3000000]⟩ : Spectrum).intensity_a.length ∧
      (100 : ℚ) ∈ (⟨1, 1000, 3, [100, 200, 300], [1000000, 2000000, 3000000]⟩ : Spectrum).mz_a ∧
      (Tol.abs 0).resolve 100 ≤ 0) ∧
    (⟨1, 1000, 3, [100, 200, 300], [1000000, 2000000, 3000000]⟩ : Spectrum).get_intensity 100
      (Tol.abs 0) = .ok 0 :=
  ⟨⟨by simp, by simp, by norm_num, by norm_num [Tol.resolve]⟩,
    claim_C10 ⟨1, 1000, 3, [100, 200, 300], [1000000, 2000000, 3000000]⟩ 100 (Tol.abs 0)
      (by simp) (by simp) (by norm_num) (by norm_num [Tol.resolve])⟩

/-- Under the parallel-array hypotheses, `get_intensity` succeeds and returns
exactly the value `specReporterIntensity` reads off it. -/
theorem get_intensity_ok (s : Spectrum) (mz : ℚ) (tol : Tol)
    (hne : s.mz_a ≠ []) (hlen : s.mz_a.length = s.intensity_a.length) :
    s.get_intensity mz tol = .ok (specReporterIntensity s tol mz) := by
  have hlt := index_most_closed_lt_length id mz hne
  have hlt2 : index_most_closed id mz s.mz_a < s.intensity_a.length := hlen ▸ hlt
  have hred := get_intensity_reduce s mz tol (List.get?_eq_get hlt) (List.get?_eq_get hlt2)
  rw [hred]
  simp only [specReporterIntensity]
  rw [hred]
  split_ifs <;> rfl

/-- Mapping with `mapM` over `Except` when every element succeeds. -/
theorem mapM_ok {α β : Type} (l : List α) (f : α → Except String β) (g : α → β)
    (h : ∀ a ∈ l, f a = .ok (g a)) :
    l.mapM f = .ok (l.map g) := by
  induction l with
  | nil => rfl
  | cons a t ih =>
    rw [List.mapM_cons, h a (List.mem_cons_self a t),
      ih fun b hb => h b (List.mem_cons_of_mem a hb)]
    rfl

/-- One step of `run` behaves as the claim describes: skip on a missed
precursor, otherwise emit the record built from the matched reference ion and
the per-reporter intensities. -/
theorem searchStep_spec (rs : ReporterSearcher) (s : Spectrum)
    (hd : rs.dda_list.data ≠ [])
    (hne : s.mz_a ≠ []) (hlen : s.mz_a.length = s.intensity_a.length) :
    searchStep rs s = .ok (specRecordFor rs.dda_list rs.ms1_tol rs.ms2_tol s) := by
  obtain ⟨c, hmc, hmem, hfind⟩ :=
    find_spec rs.dda_list s.precursor_mz rs.ms1_tol s.precursor_charge hd
  have hmapM : REPORTERS.mapM (fun mz => do
      let v ← s.get_intensity mz rs.ms2_tol
      pure (mz, v)) = .ok (REPORTERS.map fun mz => (mz, specReporterIntensity s rs.ms2_tol mz)) := by
    apply mapM_ok
    intro mz hmz
    rw [get_intensity_ok s mz rs.ms2_tol hne hlen]
    rfl
  simp only [searchStep, specRecordFor]
  rw [hfind]
  by_cases hP : |c.mz - s.precursor_mz| ≤ rs.ms1_tol.resolve s.precursor_mz ∧
    c.charge = s.precursor_charge
  · rw [if_pos hP, hmapM]
    rfl
  · rw [if_neg hP]
    rfl

/-- Running `run` over a list of spectra, one at a time in order: the emitted records
are exactly the per-spectrum records of the claim, and no error occurs. -/
theorem run_spec (rs : ReporterSearcher) (hd : rs.dda_list.data ≠ []) :
    ∀ specs : List Spectrum,
      (∀ s ∈ specs, s.mz_a ≠ [] ∧ s.mz_a.length = s.intensity_a.length) →
      rs.run specs =
        .ok (specs.filterMap (specRecordFor rs.dda_list rs.ms1_tol rs.ms2_tol)) := by
  intro specs
  induction specs with
  | nil => intro _; rfl
  | cons s t ih =>
    intro h
    have hs := h s (List.mem_cons_self s t)
    have ht := ih fun b hb => h b (List.mem_cons_of_mem s hb)
    simp only [ReporterSearcher.run]
    rw [searchStep_spec rs s hd hs.1 hs.2]
    cases hrec : specRecordFor rs.dda_list rs.ms1_tol rs.ms2_tol s with
    | none =>
      simp only [List.filterMap_cons, hrec]
      rw [← ht]
      rfl
    | some r =>
      simp only [List.filterMap_cons, hrec]
      rw [ht]
      rfl

/-- C2: `run` processes spectra in order; a spectrum whose precursor lookup
returns no ion contributes no record and no error, and a matched spectrum
contributes exactly one record carrying the spectrum's scan, the matched
*reference* ion's m/z, and one entry per reporter m/z of `REPORTERS` in that
fixed order, each holding `get_intensity(reporter_mz, ms2_tol)`. The
hypotheses state the presuppositions of the claim: the reference list is
non-empty (so `find` returns instead of raising) and every spectrum's
fragment arrays are non-empty and parallel (so each `get_intensity` call
returns a value). -/
theorem claim_C2 (rs : ReporterSearcher) (specs : List Spectrum)
    (hd : rs.dda_list.data ≠ [])
    (hspecs : ∀ s ∈ specs, s.mz_a ≠ [] ∧ s.mz_a.length = s.intensity_a.length) :
    rs.run specs =
      .ok (specs.filterMap (specRecordFor rs.dda_list rs.ms1_tol rs.ms2_tol)) ∧
    ∀ s ∈ specs, ∀ mz : ℚ,
      s.get_intensity mz rs.ms2_tol = .ok (specReporterIntensity s rs.ms2_tol mz) :=
  ⟨run_spec rs hd specs hspecs,
    fun s hs mz => get_intensity_ok s mz rs.ms2_tol (hspecs s hs).1 (hspecs s hs).2⟩

/-- Witness for C2: one reference ion `(1000, 3)`, one spectrum matching it
with two fragment peaks; the hypotheses hold and `run` yields the described
records. -/
theorem claim_C2_witness :
    ((⟨⟨[⟨1000, 3⟩]⟩, Tol.abs 1, Tol.abs 1⟩ : ReporterSearcher).dda_list.data ≠ [] ∧
      (∀ s ∈ [(⟨7, 1000.5, 3, [126.127726, 131.138180], [5, 9]⟩ : Spectrum)],
        s.mz_a ≠ [] ∧ s.mz_a.length = s.intensity_a.length)) ∧
    ((⟨⟨[⟨1000, 3⟩]⟩, Tol.abs 1, Tol.abs 1⟩ : ReporterSearcher).run
        [(⟨7, 1000.5, 3, [126.127726, 131.138180], [5, 9]⟩ : Spectrum)] =
      .ok ([(⟨7, 1000.5, 3, [126.127726, 131.138180], [5, 9]⟩ : Spectrum)].filterMap
        (specRecordFor (⟨⟨[⟨1000, 3⟩]⟩, Tol.abs 1, Tol.abs 1⟩ : ReporterSearcher).dda_list
          (⟨⟨[⟨1000, 3⟩]⟩, Tol.abs 1, Tol.abs 1⟩ : ReporterSearcher).ms1_tol
          (⟨⟨[⟨1000, 3⟩]⟩, Tol.abs 1, Tol.abs 1⟩ : ReporterSearcher).ms2_tol)) ∧
      ∀ s ∈ [(⟨7, 1000.5, 3, [126.127726, 131.138180], [5, 9]⟩ : Spectrum)], ∀ mz : ℚ,
        s.get_intensity mz (⟨⟨[⟨1000, 3⟩]⟩, Tol.abs 1, Tol.abs 1⟩ : ReporterSearcher).ms2_tol =
          .ok (specReporterIntensity s
            (⟨⟨[⟨1000, 3⟩]⟩, Tol.abs 1, Tol.abs 1⟩ : ReporterSearcher).ms2_tol mz)) :=
  ⟨⟨by simp, by simp⟩,
    claim_C2 ⟨⟨[⟨1000, 3⟩]⟩, Tol.abs 1, Tol.abs 1⟩
      [⟨7, 1000.5, 3, [126.127726, 131.138180], [5, 9]⟩] (by simp) (by simp)⟩

/-- The source's `min_diff(REPORTERS)` evaluates to `True` — numerically `1` —
because of the walrus-precedence slip: on the first iteration
`a[1] - a[0] < inf` holds, `min_` becomes `True`, and every later difference
is below `1`, so `min_` is `True` when the loop ends. -/
theorem min_diff_reporters : min_diff REPORTERS = ((1 : ℚ) : WithTop ℚ) := by
  have hs : REPORTERS.Sorted (· ≤ ·) := by norm_num [REPORTERS, List.sorted_cons]
  have hlen : REPORTERS.length = 10 := by simp [REPORTERS]
  have hrange : List.range' 1 (REPORTERS.length - 1 - 1) = [1, 2, 3, 4, 5, 6, 7, 8] := by
    rw [hlen]
    decide
  simp only [min_diff, List.Sorted.insertionSort_eq hs, hrange]
  norm_num [REPORTERS, keyAt, WithTop.coe_lt_top, WithTop.coe_lt_coe]

/-- The true minimum consecutive gap of `REPORTERS` (the spec's intended
quantity) is at most `0.006319`, the difference between reporters
`129.131471` and `129.137790`. -/
theorem specMinGap_reporters_le :
    specMinGap REPORTERS ≤ ((6319 / 1000000 : ℚ) : WithTop ℚ) := by
  have hs : REPORTERS.Sorted (· ≤ ·) := by norm_num [REPORTERS, List.sorted_cons]
  have hlen : REPORTERS.length = 10 := by simp [REPORTERS]
  have hrange : List.range' 1 (REPORTERS.length - 1) = [1, 2, 3, 4, 5, 6, 7, 8, 9] := by
    rw [hlen]
    decide
  have hmem : ((6319 / 1000000 : ℚ)) ∈
      (List.range' 1 ((REPORTERS.insertionSort (· ≤ ·)).length - 1)).map
        (fun i => keyAt id (REPORTERS.insertionSort (· ≤ ·)) i -
          keyAt id (REPORTERS.insertionSort (· ≤ ·)) (i - 1)) := by
    rw [List.Sorted.insertionSort_eq hs, hrange]
    refine List.mem_map.mpr ⟨6, by decide, ?_⟩
    norm_num [keyAt, REPORTERS]
  exact List.minimum_le_of_mem' hmem

/-- C3 is violated by the code: an absolute ms2 tolerance of `0.5` exceeds the
true minimum reporter gap (`0.006319`), yet the validator accepts it and
construction succeeds, because the walrus-precedence slip makes
`min_diff(REPORTERS)` evaluate to `True` (numerically `1`) and the check only
rejects tolerances above `1`. -/
theorem claim_C3 :
    checkMs2Tol (Tol.abs (1 / 2)) = .ok () ∧
    ReporterSearcher.construct ⟨[]⟩ (Tol.abs 1) (Tol.abs (1 / 2)) =
      .ok ⟨⟨[]⟩, Tol.abs 1, Tol.abs (1 / 2)⟩ ∧
    specMinGap REPORTERS < ((1 / 2 : ℚ) : WithTop ℚ) := by
  have hchk : checkMs2Tol (Tol.abs (1 / 2)) = .ok () := by
    simp only [checkMs2Tol, min_diff_reporters, Tol.resolve]
    rw [if_neg]
    simp only [gt_iff_lt, WithTop.coe_lt_coe]
    norm_num
  refine ⟨hchk, ?_, ?_⟩
  · have hunfold : ReporterSearcher.construct ⟨[]⟩ (Tol.abs 1) (Tol.abs (1 / 2)) =
        (checkMs2Tol (Tol.abs (1 / 2))).map fun _ => ⟨⟨[]⟩, Tol.abs 1, Tol.abs (1 / 2)⟩ := rfl
    rw [hunfold, hchk]
    rfl
  · refine lt_of_le_of_lt specMinGap_reporters_le ?_
    rw [WithTop.coe_lt_coe]
    norm_num

end Tmt
